import Mathlib

/-!
Verification of the expression AST core of actionlint (`expr_ast.go`):
node variants, the depth-first visitor `visitExprNode`/`VisitExprNode`,
the ancestor query `FindParent`, and the operator-kind enumerations.

The Go AST is embedded shallowly: the open interface `ExprNode` with its
thirteen concrete structs becomes one inductive type with thirteen
constructors; the effectful visitor callback becomes a state-transformer
`f : ExprNode → Option ExprNode → Bool → σ → σ` threaded through the
traversal in exactly the source's call order, and the sequence of callback
invocations is recovered as a trace (`visitTrace`) via the generic
factoring lemma `visitExprNode_foldl`.
-/

/-- Modelled from the spec: the `Token` type is produced by the external
lexer and is defined outside this fragment; per the spec each token carries
at least a line/column position and its literal text. Nodes only store and
return tokens, never inspect them, so this minimal record suffices. -/
structure Token where
  text : String
  line : Nat
  col : Nat
deriving DecidableEq, Repr

/-- `CompareOpNodeKind` is a kind of compare operators; `==, !=, <, <=, >, >=`.
In Go it is `type CompareOpNodeKind int`, so the carrier is the full integer
type, not just the named constants. -/
abbrev CompareOpNodeKind := Int

/-- CompareOpNodeKindInvalid is invalid and initial value of CompareOpNodeKind values. -/
def CompareOpNodeKindInvalid : CompareOpNodeKind := 0
/-- CompareOpNodeKindLess is kind for < operator. -/
def CompareOpNodeKindLess : CompareOpNodeKind := 1
/-- CompareOpNodeKindLessEq is kind for <= operator. -/
def CompareOpNodeKindLessEq : CompareOpNodeKind := 2
/-- CompareOpNodeKindGreater is kind for > operator. -/
def CompareOpNodeKindGreater : CompareOpNodeKind := 3
/-- CompareOpNodeKindGreaterEq is kind for >= operator. -/
def CompareOpNodeKindGreaterEq : CompareOpNodeKind := 4
/-- CompareOpNodeKindEq is kind for == operator. -/
def CompareOpNodeKindEq : CompareOpNodeKind := 5
/-- CompareOpNodeKindNotEq is kind for != operator. -/
def CompareOpNodeKindNotEq : CompareOpNodeKind := 6

/-- IsEqualityOp returns true when it represents == or != operator. -/
def IsEqualityOp (kind : CompareOpNodeKind) : Bool :=
  kind == CompareOpNodeKindEq || kind == CompareOpNodeKindNotEq

/-- `CompareOpNodeKind.String()`: the `switch kind` statement with a
`default` branch returning the empty string. -/
def CompareOpNodeKindString (kind : CompareOpNodeKind) : String :=
  if kind == CompareOpNodeKindLess then "<"
  else if kind == CompareOpNodeKindLessEq then "<="
  else if kind == CompareOpNodeKindGreater then ">"
  else if kind == CompareOpNodeKindGreaterEq then ">="
  else if kind == CompareOpNodeKindEq then "=="
  else if kind == CompareOpNodeKindNotEq then "!="
  else ""

/-- `LogicalOpNodeKind` is a kind of logical operators; `&&` and `||`.
In Go it is `type LogicalOpNodeKind int`. -/
abbrev LogicalOpNodeKind := Int

/-- LogicalOpNodeKindInvalid is an invalid and initial value of LogicalOpNodeKind. -/
def LogicalOpNodeKindInvalid : LogicalOpNodeKind := 0
/-- LogicalOpNodeKindAnd is a kind for && operator. -/
def LogicalOpNodeKindAnd : LogicalOpNodeKind := 1
/-- LogicalOpNodeKindOr is a kind for || operator. -/
def LogicalOpNodeKindOr : LogicalOpNodeKind := 2

/-- `LogicalOpNodeKind.String()`: the `switch k` statement with a
`default` branch returning `"INVALID LOGICAL OPERATOR"`. -/
def LogicalOpNodeKindString (k : LogicalOpNodeKind) : String :=
  if k == LogicalOpNodeKindAnd then "&&"
  else if k == LogicalOpNodeKindOr then "||"
  else "INVALID LOGICAL OPERATOR"

/-- ExprNode is a node of expression syntax tree. The thirteen concrete Go
structs implementing the `ExprNode` interface become thirteen constructors.
The Go `parent` back-pointer field is not part of the value (it is a
navigation relation set externally by the parser); parent chains are
modelled explicitly where needed (see `LocatedNode`). -/
inductive ExprNode where
  /-- VariableNode is node for variable access. -/
  | variableNode (name : String) (tok : Token)
  /-- NullNode is node for null literal. -/
  | nullNode (tok : Token)
  /-- BoolNode is node for boolean literal, true or false. -/
  | boolNode (value : Bool) (tok : Token)
  /-- IntNode is node for integer literal. -/
  | intNode (value : Int) (tok : Token)
  /-- FloatNode is node for float literal. -/
  | floatNode (value : Float) (tok : Token)
  /-- StringNode is node for string literal. -/
  | stringNode (value : String) (tok : Token)
  /-- ObjectDerefNode represents property dereference of object like `foo.bar`. -/
  | objectDerefNode (receiver : ExprNode) (property : String)
  /-- ArrayDerefNode represents elements dereference of arrays like `*` in `foo.bar.*.piyo`. -/
  | arrayDerefNode (receiver : ExprNode)
  /-- IndexAccessNode is node for index access. -/
  | indexAccessNode (operand : ExprNode) (index : ExprNode)
  /-- NotOpNode is node for unary ! operator. -/
  | notOpNode (operand : ExprNode) (tok : Token)
  /-- CompareOpNode is node for binary expression to compare values. -/
  | compareOpNode (kind : CompareOpNodeKind) (left : ExprNode) (right : ExprNode)
  /-- LogicalOpNode is node for logical binary operators; `&&` or `||`. -/
  | logicalOpNode (kind : LogicalOpNodeKind) (left : ExprNode) (right : ExprNode)
  /-- FuncCallNode represents function call in expression. -/
  | funcCallNode (callee : String) (args : List ExprNode) (tok : Token)

/-- The `Token()` method of each variant: leaf-like variants return their
stored token (`n.tok`); `ObjectDerefNode` and `ArrayDerefNode` return
`n.Receiver.Token()`, `IndexAccessNode` returns `n.Operand.Token()`,
`CompareOpNode` and `LogicalOpNode` return `n.Left.Token()`. -/
def ExprNode.token : ExprNode → Token
  | .variableNode _ tok => tok
  | .nullNode tok => tok
  | .boolNode _ tok => tok
  | .intNode _ tok => tok
  | .floatNode _ tok => tok
  | .stringNode _ tok => tok
  | .objectDerefNode receiver _ => receiver.token
  | .arrayDerefNode receiver => receiver.token
  | .indexAccessNode operand _ => operand.token
  | .notOpNode _ tok => tok
  | .compareOpNode _ left _ => left.token
  | .logicalOpNode _ left _ => left.token
  | .funcCallNode _ _ tok => tok

/-- The stored token of a variant that holds one itself, `none` for the
variants whose `Token()` delegates to a child. -/
def ExprNode.ownTok : ExprNode → Option Token
  | .variableNode _ tok => some tok
  | .nullNode tok => some tok
  | .boolNode _ tok => some tok
  | .intNode _ tok => some tok
  | .floatNode _ tok => some tok
  | .stringNode _ tok => some tok
  | .notOpNode _ tok => some tok
  | .funcCallNode _ _ tok => some tok
  | _ => none

/-- The child a variant's `Token()` method delegates to, `none` when the
variant returns its own stored token. -/
def ExprNode.tokenDelegate : ExprNode → Option ExprNode
  | .objectDerefNode receiver _ => some receiver
  | .arrayDerefNode receiver => some receiver
  | .indexAccessNode operand _ => some operand
  | .compareOpNode _ left _ => some left
  | .logicalOpNode _ left _ => some left
  | _ => none

/-- The chain of nodes `Token()` passes through: the node itself, then the
delegation target's chain; a single node when the token is stored locally. -/
def ExprNode.tokenChain : ExprNode → List ExprNode
  | n@(.objectDerefNode receiver _) => n :: receiver.tokenChain
  | n@(.arrayDerefNode receiver) => n :: receiver.tokenChain
  | n@(.indexAccessNode operand _) => n :: operand.tokenChain
  | n@(.compareOpNode _ left _) => n :: left.tokenChain
  | n@(.logicalOpNode _ left _) => n :: left.tokenChain
  | n => [n]

/-- The children of a node in the order `visitExprNode` descends into them
(the `switch` in the walker): receiver for dereferences, index before
operand for index access, operand for not, left then right for binary
operators, the argument list in order for calls, nothing for leaves. -/
def ExprNode.children : ExprNode → List ExprNode
  | .objectDerefNode receiver _ => [receiver]
  | .arrayDerefNode receiver => [receiver]
  | .indexAccessNode operand index => [index, operand]
  | .notOpNode operand _ => [operand]
  | .compareOpNode _ left right => [left, right]
  | .logicalOpNode _ left right => [left, right]
  | .funcCallNode _ args _ => args
  | _ => []

mutual
/-- Number of nodes of the tree reachable through child fields. -/
def ExprNode.size : ExprNode → Nat
  | .objectDerefNode receiver _ => 1 + receiver.size
  | .arrayDerefNode receiver => 1 + receiver.size
  | .indexAccessNode operand index => 1 + index.size + operand.size
  | .notOpNode operand _ => 1 + operand.size
  | .compareOpNode _ left right => 1 + left.size + right.size
  | .logicalOpNode _ left right => 1 + left.size + right.size
  | .funcCallNode _ args _ => 1 + ExprNode.sizeList args
  | _ => 1

/-- Total size of a list of trees. -/
def ExprNode.sizeList : List ExprNode → Nat
  | [] => 0
  | a :: rest => a.size + ExprNode.sizeList rest
end

mutual
/-- All nodes of the tree, parents before children, children in the
walker's visiting order. -/
def ExprNode.preorder : ExprNode → List ExprNode
  | n@(.objectDerefNode receiver _) => n :: receiver.preorder
  | n@(.arrayDerefNode receiver) => n :: receiver.preorder
  | n@(.indexAccessNode operand index) => n :: (index.preorder ++ operand.preorder)
  | n@(.notOpNode operand _) => n :: operand.preorder
  | n@(.compareOpNode _ left right) => n :: (left.preorder ++ right.preorder)
  | n@(.logicalOpNode _ left right) => n :: (left.preorder ++ right.preorder)
  | n@(.funcCallNode _ args _) => n :: ExprNode.preorderList args
  | n => [n]

/-- Preorder lists of a list of trees, concatenated in order. -/
def ExprNode.preorderList : List ExprNode → List ExprNode
  | [] => []
  | a :: rest => a.preorder ++ ExprNode.preorderList rest
end

mutual
/-- All nodes of the tree, children before parents, children in the
walker's visiting order. -/
def ExprNode.postorder : ExprNode → List ExprNode
  | n@(.objectDerefNode receiver _) => receiver.postorder ++ [n]
  | n@(.arrayDerefNode receiver) => receiver.postorder ++ [n]
  | n@(.indexAccessNode operand index) => (index.postorder ++ operand.postorder) ++ [n]
  | n@(.notOpNode operand _) => operand.postorder ++ [n]
  | n@(.compareOpNode _ left right) => (left.postorder ++ right.postorder) ++ [n]
  | n@(.logicalOpNode _ left right) => (left.postorder ++ right.postorder) ++ [n]
  | n@(.funcCallNode _ args _) => ExprNode.postorderList args ++ [n]
  | n => [n]

/-- Postorder lists of a list of trees, concatenated in order. -/
def ExprNode.postorderList : List ExprNode → List ExprNode
  | [] => []
  | a :: rest => a.postorder ++ ExprNode.postorderList rest
end

/-- `VisitExprNodeFunc` is the visitor callback `func(node, parent ExprNode,
entering bool)`. An effectful Go callback becomes a state transformer: its
observable effect on a state of type `σ`. The `parent` argument is `none`
exactly where Go passes `nil`. -/
def VisitExprNodeFunc (σ : Type) : Type :=
  ExprNode → Option ExprNode → Bool → σ → σ

mutual
/-- `visitExprNode(n, p, f)`: calls `f(n, p, true)`, then recurses into the
children per the `switch` (receiver; receiver; index then operand; operand;
left then right; left then right; each arg in order; nothing for the leaf
variants, which have no `case`), then calls `f(n, p, false)`. Each child is
visited with parent argument `n`. -/
def visitExprNode {σ : Type} (f : VisitExprNodeFunc σ) :
    ExprNode → Option ExprNode → σ → σ
  | n@(.objectDerefNode receiver _), p, s =>
      f n p false (visitExprNode f receiver (some n) (f n p true s))
  | n@(.arrayDerefNode receiver), p, s =>
      f n p false (visitExprNode f receiver (some n) (f n p true s))
  | n@(.indexAccessNode operand index), p, s =>
      f n p false (visitExprNode f operand (some n)
        (visitExprNode f index (some n) (f n p true s)))
  | n@(.notOpNode operand _), p, s =>
      f n p false (visitExprNode f operand (some n) (f n p true s))
  | n@(.compareOpNode _ left right), p, s =>
      f n p false (visitExprNode f right (some n)
        (visitExprNode f left (some n) (f n p true s)))
  | n@(.logicalOpNode _ left right), p, s =>
      f n p false (visitExprNode f right (some n)
        (visitExprNode f left (some n) (f n p true s)))
  | n@(.funcCallNode _ args _), p, s =>
      f n p false (visitExprArgs f args n (f n p true s))
  | n, p, s =>
      f n p false (f n p true s)

/-- The `for i := range n.Args` loop of the `FuncCallNode` case: visits
each argument in index order with parent `parent`. -/
def visitExprArgs {σ : Type} (f : VisitExprNodeFunc σ) :
    List ExprNode → ExprNode → σ → σ
  | [], _, s => s
  | a :: rest, parent, s =>
      visitExprArgs f rest parent (visitExprNode f a (some parent) s)
end

/-- VisitExprNode visits the given expression syntax tree with given
function f: `visitExprNode(n, nil, f)`. -/
def VisitExprNode {σ : Type} (n : ExprNode) (f : VisitExprNodeFunc σ) (s : σ) : σ :=
  visitExprNode f n none s

/-- One recorded callback invocation: the three arguments the walker
passed to `f`. -/
structure VisitEvent where
  node : ExprNode
  parent : Option ExprNode
  entering : Bool

/-- The callback that records its own invocations in order. -/
def recordEvent : VisitExprNodeFunc (List VisitEvent) :=
  fun n p e s => s ++ [⟨n, p, e⟩]

/-- The invocation sequence of the callback during `visitExprNode(n, p, ·)`:
the trace left by the recording callback started from the empty list. -/
def visitTrace (n : ExprNode) (p : Option ExprNode) : List VisitEvent :=
  visitExprNode recordEvent n p []

/-- The nodes of the entering invocations of a trace, in order. -/
def enterings (t : List VisitEvent) : List ExprNode :=
  (t.filter (·.entering)).map (·.node)

/-- The nodes of the leaving invocations of a trace, in order. -/
def leavings (t : List VisitEvent) : List ExprNode :=
  (t.filter (!·.entering)).map (·.node)

/-- A node together with its chain of ancestors, nearest first: the
explicit form of the `parent` back-pointers the parser wires up. The chain
of `x.parentChain = [p1, p2, ..., pk]` means `x.Parent() = p1`,
`p1.Parent() = p2`, ..., `pk.Parent() = nil`. -/
structure LocatedNode where
  node : ExprNode
  parentChain : List ExprNode

/-- The `Parent()` method: the nearest ancestor as a located node (it keeps
the rest of the chain), or `none` at the root (Go `nil`). -/
def LocatedNode.parentLoc : LocatedNode → Option LocatedNode
  | ⟨_, []⟩ => none
  | ⟨_, p :: ps⟩ => some ⟨p, ps⟩

/-- The `for parent != nil` loop body of `FindParent`: applies the
predicate to the current candidate, returns its payload on the first match,
otherwise advances with `parent = parent.Parent()`; yields `none` (the Go
`zero, false` return) when the chain is exhausted. -/
def findParentLoop {T : Type} (predicate : ExprNode → Option T) :
    Option LocatedNode → Option T
  | none => none
  | some loc =>
      match predicate loc.node with
      | some t => some t
      | none => findParentLoop predicate loc.parentLoc
termination_by loc => match loc with
  | none => 0
  | some loc => loc.parentChain.length + 1
decreasing_by
  cases loc with
  | mk node chain => cases chain <;> simp [LocatedNode.parentLoc]

/-- `FindParent(n, predicate)` applies predicate to each parent of this
node until predicate returns true, starting at `n.Parent()`. The Go
`(T, bool)` result becomes `Option T`. -/
def FindParent {T : Type} (n : LocatedNode) (predicate : ExprNode → Option T) :
    Option T :=
  findParentLoop predicate n.parentLoc

/-- The trace of the argument loop of a `FuncCallNode`. -/
def visitArgsTrace (args : List ExprNode) (parent : ExprNode) : List VisitEvent :=
  visitExprArgs recordEvent args parent []

/-- One callback invocation replayed on a state. -/
def applyEvent {σ : Type} (f : VisitExprNodeFunc σ) (s : σ) (e : VisitEvent) : σ :=
  f e.node e.parent e.entering s

/-- Token of `foo` in the worked example `foo.bar[baz.qux]`. -/
def fooTok : Token := ⟨"foo", 1, 1⟩
/-- Token of `baz` in the worked example `foo.bar[baz.qux]`. -/
def bazTok : Token := ⟨"baz", 1, 9⟩
/-- `Variable(foo)` of the worked example. -/
def fooVariable : ExprNode := .variableNode "foo" fooTok
/-- `ObjectDeref(foo.bar)` of the worked example. -/
def fooBarDeref : ExprNode := .objectDerefNode fooVariable "bar"
/-- `Variable(baz)` of the worked example. -/
def bazVariable : ExprNode := .variableNode "baz" bazTok
/-- `ObjectDeref(baz.qux)` of the worked example. -/
def bazQuxDeref : ExprNode := .objectDerefNode bazVariable "qux"
/-- The tree of `foo.bar[baz.qux]`:
`IndexAccess(operand = foo.bar, index = baz.qux)`. -/
def exampleIndexTree : ExprNode := .indexAccessNode fooBarDeref bazQuxDeref

/-- The typed-narrowing predicate used to exercise `FindParent`: matches a
property dereference ancestor and returns its property name. -/
def derefProperty : ExprNode → Option String
  | .objectDerefNode _ property => some property
  | _ => none

mutual
/-- Running the recording callback from any start state appends the trace. -/
theorem visit_record_append :
    ∀ (n : ExprNode) (p : Option ExprNode) (s : List VisitEvent),
      visitExprNode recordEvent n p s = s ++ visitTrace n p
  | .variableNode name tok, p, s => by
      simp [visitExprNode, visitTrace, recordEvent]
  | .nullNode tok, p, s => by
      simp [visitExprNode, visitTrace, recordEvent]
  | .boolNode value tok, p, s => by
      simp [visitExprNode, visitTrace, recordEvent]
  | .intNode value tok, p, s => by
      simp [visitExprNode, visitTrace, recordEvent]
  | .floatNode value tok, p, s => by
      simp [visitExprNode, visitTrace, recordEvent]
  | .stringNode value tok, p, s => by
      simp [visitExprNode, visitTrace, recordEvent]
  | .objectDerefNode receiver property, p, s => by
      have ih := visit_record_append receiver
      simp only [visitTrace, visitExprNode]
      simp [recordEvent, ih]
  | .arrayDerefNode receiver, p, s => by
      have ih := visit_record_append receiver
      simp only [visitTrace, visitExprNode]
      simp [recordEvent, ih]
  | .indexAccessNode operand index, p, s => by
      have ih1 := visit_record_append index
      have ih2 := visit_record_append operand
      simp only [visitTrace, visitExprNode]
      simp [recordEvent, ih1, ih2]
  | .notOpNode operand tok, p, s => by
      have ih := visit_record_append operand
      simp only [visitTrace, visitExprNode]
      simp [recordEvent, ih]
  | .compareOpNode kind left right, p, s => by
      have ih1 := visit_record_append left
      have ih2 := visit_record_append right
      simp only [visitTrace, visitExprNode]
      simp [recordEvent, ih1, ih2]
  | .logicalOpNode kind left right, p, s => by
      have ih1 := visit_record_append left
      have ih2 := visit_record_append right
      simp only [visitTrace, visitExprNode]
      simp [recordEvent, ih1, ih2]
  | .funcCallNode callee args tok, p, s => by
      have ih := visitArgs_record_append args
      simp only [visitTrace, visitExprNode]
      simp [recordEvent, ih]

/-- Running the recording callback over an argument list from any start
state appends the argument-loop trace. -/
theorem visitArgs_record_append :
    ∀ (args : List ExprNode) (parent : ExprNode) (s : List VisitEvent),
      visitExprArgs recordEvent args parent s = s ++ visitArgsTrace args parent
  | [], parent, s => by
      simp [visitExprArgs, visitArgsTrace]
  | a :: rest, parent, s => by
      have iha := visit_record_append a
      have ihr := visitArgs_record_append rest
      simp only [visitArgsTrace, visitExprArgs]
      simp [iha, ihr]
end

theorem visitArgsTrace_nil (parent : ExprNode) : visitArgsTrace [] parent = [] := by
  simp [visitArgsTrace, visitExprArgs]

theorem visitArgsTrace_cons (a : ExprNode) (rest : List ExprNode) (parent : ExprNode) :
    visitArgsTrace (a :: rest) parent =
      visitTrace a (some parent) ++ visitArgsTrace rest parent := by
  simp only [visitArgsTrace, visitExprArgs]
  rw [visit_record_append, visitArgs_record_append]
  simp [visitArgsTrace]

theorem visitTrace_variableNode (name : String) (tok : Token) (p : Option ExprNode) :
    visitTrace (.variableNode name tok) p =
      [⟨.variableNode name tok, p, true⟩, ⟨.variableNode name tok, p, false⟩] := by
  simp only [visitTrace, visitExprNode]
  simp [recordEvent]

theorem visitTrace_nullNode (tok : Token) (p : Option ExprNode) :
    visitTrace (.nullNode tok) p =
      [⟨.nullNode tok, p, true⟩, ⟨.nullNode tok, p, false⟩] := by
  simp only [visitTrace, visitExprNode]
  simp [recordEvent]

theorem visitTrace_boolNode (value : Bool) (tok : Token) (p : Option ExprNode) :
    visitTrace (.boolNode value tok) p =
      [⟨.boolNode value tok, p, true⟩, ⟨.boolNode value tok, p, false⟩] := by
  simp only [visitTrace, visitExprNode]
  simp [recordEvent]

theorem visitTrace_intNode (value : Int) (tok : Token) (p : Option ExprNode) :
    visitTrace (.intNode value tok) p =
      [⟨.intNode value tok, p, true⟩, ⟨.intNode value tok, p, false⟩] := by
  simp only [visitTrace, visitExprNode]
  simp [recordEvent]

theorem visitTrace_floatNode (value : Float) (tok : Token) (p : Option ExprNode) :
    visitTrace (.floatNode value tok) p =
      [⟨.floatNode value tok, p, true⟩, ⟨.floatNode value tok, p, false⟩] := by
  simp only [visitTrace, visitExprNode]
  simp [recordEvent]

theorem visitTrace_stringNode (value : String) (tok : Token) (p : Option ExprNode) :
    visitTrace (.stringNode value tok) p =
      [⟨.stringNode value tok, p, true⟩, ⟨.stringNode value tok, p, false⟩] := by
  simp only [visitTrace, visitExprNode]
  simp [recordEvent]

theorem visitTrace_objectDerefNode (receiver : ExprNode) (property : String)
    (p : Option ExprNode) :
    visitTrace (.objectDerefNode receiver property) p =
      ⟨.objectDerefNode receiver property, p, true⟩ ::
        (visitTrace receiver (some (.objectDerefNode receiver property)) ++
          [⟨.objectDerefNode receiver property, p, false⟩]) := by
  simp only [visitTrace, visitExprNode]
  rw [visit_record_append]
  simp [recordEvent, visitTrace]

theorem visitTrace_arrayDerefNode (receiver : ExprNode) (p : Option ExprNode) :
    visitTrace (.arrayDerefNode receiver) p =
      ⟨.arrayDerefNode receiver, p, true⟩ ::
        (visitTrace receiver (some (.arrayDerefNode receiver)) ++
          [⟨.arrayDerefNode receiver, p, false⟩]) := by
  simp only [visitTrace, visitExprNode]
  rw [visit_record_append]
  simp [recordEvent, visitTrace]

theorem visitTrace_indexAccessNode (operand index : ExprNode) (p : Option ExprNode) :
    visitTrace (.indexAccessNode operand index) p =
      ⟨.indexAccessNode operand index, p, true⟩ ::
        (visitTrace index (some (.indexAccessNode operand index)) ++
          (visitTrace operand (some (.indexAccessNode operand index)) ++
            [⟨.indexAccessNode operand index, p, false⟩])) := by
  simp only [visitTrace, visitExprNode]
  rw [visit_record_append, visit_record_append]
  simp [recordEvent, visitTrace]

theorem visitTrace_notOpNode (operand : ExprNode) (tok : Token) (p : Option ExprNode) :
    visitTrace (.notOpNode operand tok) p =
      ⟨.notOpNode operand tok, p, true⟩ ::
        (visitTrace operand (some (.notOpNode operand tok)) ++
          [⟨.notOpNode operand tok, p, false⟩]) := by
  simp only [visitTrace, visitExprNode]
  rw [visit_record_append]
  simp [recordEvent, visitTrace]

theorem visitTrace_compareOpNode (kind : CompareOpNodeKind) (left right : ExprNode)
    (p : Option ExprNode) :
    visitTrace (.compareOpNode kind left right) p =
      ⟨.compareOpNode kind left right, p, true⟩ ::
        (visitTrace left (some (.compareOpNode kind left right)) ++
          (visitTrace right (some (.compareOpNode kind left right)) ++
            [⟨.compareOpNode kind left right, p, false⟩])) := by
  simp only [visitTrace, visitExprNode]
  rw [visit_record_append, visit_record_append]
  simp [recordEvent, visitTrace]

theorem visitTrace_logicalOpNode (kind : LogicalOpNodeKind) (left right : ExprNode)
    (p : Option ExprNode) :
    visitTrace (.logicalOpNode kind left right) p =
      ⟨.logicalOpNode kind left right, p, true⟩ ::
        (visitTrace left (some (.logicalOpNode kind left right)) ++
          (visitTrace right (some (.logicalOpNode kind left right)) ++
            [⟨.logicalOpNode kind left right, p, false⟩])) := by
  simp only [visitTrace, visitExprNode]
  rw [visit_record_append, visit_record_append]
  simp [recordEvent, visitTrace]

theorem visitTrace_funcCallNode (callee : String) (args : List ExprNode) (tok : Token)
    (p : Option ExprNode) :
    visitTrace (.funcCallNode callee args tok) p =
      ⟨.funcCallNode callee args tok, p, true⟩ ::
        (visitArgsTrace args (.funcCallNode callee args tok) ++
          [⟨.funcCallNode callee args tok, p, false⟩]) := by
  simp only [visitTrace, visitExprNode]
  rw [visitArgs_record_append]
  simp [recordEvent, visitArgsTrace]

theorem visitArgsTrace_join (args : List ExprNode) (parent : ExprNode) :
    visitArgsTrace args parent =
      (args.map (fun a => visitTrace a (some parent))).flatten := by
  induction args with
  | nil => simp [visitArgsTrace_nil]
  | cons a rest ih => simp [visitArgsTrace_cons, ih]

/-- The trace of any node brackets the concatenated traces of its children
(in the walker's order) between the entering and the leaving invocation. -/
theorem visitTrace_eq_children (n : ExprNode) (p : Option ExprNode) :
    visitTrace n p =
      ⟨n, p, true⟩ ::
        ((n.children.map (fun c => visitTrace c (some n))).flatten ++ [⟨n, p, false⟩]) := by
  cases n <;>
    simp [ExprNode.children, visitTrace_variableNode, visitTrace_nullNode,
      visitTrace_boolNode, visitTrace_intNode, visitTrace_floatNode,
      visitTrace_stringNode, visitTrace_objectDerefNode, visitTrace_arrayDerefNode,
      visitTrace_indexAccessNode, visitTrace_notOpNode, visitTrace_compareOpNode,
      visitTrace_logicalOpNode, visitTrace_funcCallNode, visitArgsTrace_join]

theorem sizeOf_lt_of_mem_children {c n : ExprNode} (h : c ∈ n.children) :
    sizeOf c < sizeOf n := by
  cases n <;> simp_all [ExprNode.children] <;>
    first
      | omega
      | (rcases h with h | h <;> subst h <;> omega)
      | (have hs := List.sizeOf_lt_of_mem h; omega)

theorem sizeList_eq_sum (args : List ExprNode) :
    ExprNode.sizeList args = (args.map ExprNode.size).sum := by
  induction args with
  | nil => simp [ExprNode.sizeList]
  | cons a rest ih => simp [ExprNode.sizeList, ih]

/-- `size` counts the node plus the sizes of its children. -/
theorem size_eq_children (n : ExprNode) :
    n.size = 1 + (n.children.map ExprNode.size).sum := by
  cases n <;> simp [ExprNode.size, ExprNode.children, sizeList_eq_sum] <;> omega

theorem preorderList_eq_join (args : List ExprNode) :
    ExprNode.preorderList args = (args.map ExprNode.preorder).flatten := by
  induction args with
  | nil => simp [ExprNode.preorderList]
  | cons a rest ih => simp [ExprNode.preorderList, ih]

theorem postorderList_eq_join (args : List ExprNode) :
    ExprNode.postorderList args = (args.map ExprNode.postorder).flatten := by
  induction args with
  | nil => simp [ExprNode.postorderList]
  | cons a rest ih => simp [ExprNode.postorderList, ih]

/-- `preorder` lists the node, then the preorders of its children in the
walker's order. -/
theorem preorder_eq_children (n : ExprNode) :
    n.preorder = n :: (n.children.map ExprNode.preorder).flatten := by
  cases n <;> simp [ExprNode.preorder, ExprNode.children, preorderList_eq_join]

/-- `postorder` lists the postorders of the children in the walker's order,
then the node. -/
theorem postorder_eq_children (n : ExprNode) :
    n.postorder = (n.children.map ExprNode.postorder).flatten ++ [n] := by
  cases n <;> simp [ExprNode.postorder, ExprNode.children, postorderList_eq_join]

theorem sum_map_two_mul (l : List ExprNode) (g : ExprNode → Nat) :
    (l.map (fun x => 2 * g x)).sum = 2 * (l.map g).sum := by
  induction l with
  | nil => simp
  | cons a t ih => simp [ih]; ring

/-- The callback receives exactly `2 * size` invocations. -/
theorem visitTrace_length :
    ∀ (n : ExprNode) (p : Option ExprNode), (visitTrace n p).length = 2 * n.size
  | n, p => by
    have ih : ∀ c ∈ n.children, (visitTrace c (some n)).length = 2 * c.size :=
      fun c hc => visitTrace_length c (some n)
    rw [visitTrace_eq_children, size_eq_children]
    simp only [List.length_cons, List.length_append, List.length_flatten,
      List.map_map, List.length_nil, Function.comp_def]
    rw [List.map_congr_left (fun c hc => ih c hc), sum_map_two_mul]
    omega
termination_by n _ => sizeOf n
decreasing_by exact sizeOf_lt_of_mem_children hc

theorem enterings_append (a b : List VisitEvent) :
    enterings (a ++ b) = enterings a ++ enterings b := by
  simp [enterings]

theorem leavings_append (a b : List VisitEvent) :
    leavings (a ++ b) = leavings a ++ leavings b := by
  simp [leavings]

theorem enterings_flatten (L : List (List VisitEvent)) :
    enterings L.flatten = (L.map enterings).flatten := by
  induction L with
  | nil => simp [enterings]
  | cons a t ih => simp [enterings_append, ih]

theorem leavings_flatten (L : List (List VisitEvent)) :
    leavings L.flatten = (L.map leavings).flatten := by
  induction L with
  | nil => simp [leavings]
  | cons a t ih => simp [leavings_append, ih]

/-- The entering invocations list the tree in preorder. -/
theorem enterings_visitTrace :
    ∀ (n : ExprNode) (p : Option ExprNode), enterings (visitTrace n p) = n.preorder
  | n, p => by
    have ih : ∀ c ∈ n.children, enterings (visitTrace c (some n)) = c.preorder :=
      fun c hc => enterings_visitTrace c (some n)
    rw [visitTrace_eq_children, preorder_eq_children]
    rw [show (⟨n, p, true⟩ : VisitEvent) ::
          ((n.children.map (fun c => visitTrace c (some n))).flatten ++ [⟨n, p, false⟩]) =
        [⟨n, p, true⟩] ++
          ((n.children.map (fun c => visitTrace c (some n))).flatten ++ [⟨n, p, false⟩])
      from rfl]
    rw [enterings_append, enterings_append, enterings_flatten, List.map_map]
    simp only [Function.comp_def]
    rw [List.map_congr_left (fun c hc => ih c hc)]
    simp [enterings]
termination_by n _ => sizeOf n
decreasing_by exact sizeOf_lt_of_mem_children hc

/-- The leaving invocations list the tree in postorder. -/
theorem leavings_visitTrace :
    ∀ (n : ExprNode) (p : Option ExprNode), leavings (visitTrace n p) = n.postorder
  | n, p => by
    have ih : ∀ c ∈ n.children, leavings (visitTrace c (some n)) = c.postorder :=
      fun c hc => leavings_visitTrace c (some n)
    rw [visitTrace_eq_children, postorder_eq_children]
    rw [show (⟨n, p, true⟩ : VisitEvent) ::
          ((n.children.map (fun c => visitTrace c (some n))).flatten ++ [⟨n, p, false⟩]) =
        [⟨n, p, true⟩] ++
          ((n.children.map (fun c => visitTrace c (some n))).flatten ++ [⟨n, p, false⟩])
      from rfl]
    rw [leavings_append, leavings_append, leavings_flatten, List.map_map]
    simp only [Function.comp_def]
    rw [List.map_congr_left (fun c hc => ih c hc)]
    simp [leavings]
termination_by n _ => sizeOf n
decreasing_by exact sizeOf_lt_of_mem_children hc

/-- `preorder` lists every node of the tree exactly once: its length is the
tree's size. -/
theorem preorder_length (n : ExprNode) : n.preorder.length = n.size := by
  have ih : ∀ c ∈ n.children, c.preorder.length = c.size :=
    fun c hc => preorder_length c
  rw [preorder_eq_children, size_eq_children]
  simp only [List.length_cons, List.length_flatten, List.map_map, Function.comp_def]
  rw [List.map_congr_left (fun c hc => ih c hc)]
  omega
termination_by sizeOf n
decreasing_by exact sizeOf_lt_of_mem_children hc

mutual
/-- The walker applied to an arbitrary callback is the left fold of that
callback over the recorded trace: `visitTrace` is exactly the invocation
sequence of `f`, whatever `f` is. -/
theorem visitExprNode_foldl {σ : Type} (f : VisitExprNodeFunc σ) :
    ∀ (n : ExprNode) (p : Option ExprNode) (s : σ),
      visitExprNode f n p s = (visitTrace n p).foldl (applyEvent f) s
  | .variableNode name tok, p, s => by
      simp [visitExprNode, visitTrace_variableNode, applyEvent]
  | .nullNode tok, p, s => by
      simp [visitExprNode, visitTrace_nullNode, applyEvent]
  | .boolNode value tok, p, s => by
      simp [visitExprNode, visitTrace_boolNode, applyEvent]
  | .intNode value tok, p, s => by
      simp [visitExprNode, visitTrace_intNode, applyEvent]
  | .floatNode value tok, p, s => by
      simp [visitExprNode, visitTrace_floatNode, applyEvent]
  | .stringNode value tok, p, s => by
      simp [visitExprNode, visitTrace_stringNode, applyEvent]
  | .objectDerefNode receiver property, p, s => by
      have ih := visitExprNode_foldl f receiver
      rw [visitTrace_objectDerefNode]
      simp [visitExprNode, List.foldl_append, applyEvent, ih]
  | .arrayDerefNode receiver, p, s => by
      have ih := visitExprNode_foldl f receiver
      rw [visitTrace_arrayDerefNode]
      simp [visitExprNode, List.foldl_append, applyEvent, ih]
  | .indexAccessNode operand index, p, s => by
      have ih1 := visitExprNode_foldl f index
      have ih2 := visitExprNode_foldl f operand
      rw [visitTrace_indexAccessNode]
      simp [visitExprNode, List.foldl_append, applyEvent, ih1, ih2]
  | .notOpNode operand tok, p, s => by
      have ih := visitExprNode_foldl f operand
      rw [visitTrace_notOpNode]
      simp [visitExprNode, List.foldl_append, applyEvent, ih]
  | .compareOpNode kind left right, p, s => by
      have ih1 := visitExprNode_foldl f left
      have ih2 := visitExprNode_foldl f right
      rw [visitTrace_compareOpNode]
      simp [visitExprNode, List.foldl_append, applyEvent, ih1, ih2]
  | .logicalOpNode kind left right, p, s => by
      have ih1 := visitExprNode_foldl f left
      have ih2 := visitExprNode_foldl f right
      rw [visitTrace_logicalOpNode]
      simp [visitExprNode, List.foldl_append, applyEvent, ih1, ih2]
  | .funcCallNode callee args tok, p, s => by
      have ih := visitExprArgs_foldl f args
      rw [visitTrace_funcCallNode]
      simp [visitExprNode, List.foldl_append, applyEvent, ih]

/-- The argument loop applied to an arbitrary callback is the left fold of
that callback over the argument-loop trace. -/
theorem visitExprArgs_foldl {σ : Type} (f : VisitExprNodeFunc σ) :
    ∀ (args : List ExprNode) (parent : ExprNode) (s : σ),
      visitExprArgs f args parent s = (visitArgsTrace args parent).foldl (applyEvent f) s
  | [], parent, s => by
      simp [visitExprArgs, visitArgsTrace_nil]
  | a :: rest, parent, s => by
      have iha := visitExprNode_foldl f a
      have ihr := visitExprArgs_foldl f rest
      rw [visitArgsTrace_cons]
      simp [visitExprArgs, List.foldl_append, iha, ihr]
end

theorem self_mem_preorder (n : ExprNode) : n ∈ n.preorder := by
  rw [preorder_eq_children]
  exact List.mem_cons_self n _

theorem mem_preorder_of_mem_child {x c n : ExprNode} (hc : c ∈ n.children)
    (hx : x ∈ c.preorder) : x ∈ n.preorder := by
  rw [preorder_eq_children]
  refine List.mem_cons_of_mem n (List.mem_flatten.mpr ⟨c.preorder, ?_, hx⟩)
  exact List.mem_map_of_mem ExprNode.preorder hc

/-- Every recorded invocation is either the bracketing pair of the root of
the traversal (node `n`, parent as passed in) or carries as parent argument
the node from whose child field the walker descended; its node is always a
member of the tree reached through child fields. -/
theorem visitTrace_parent_sound :
    ∀ (n : ExprNode) (p : Option ExprNode) (e : VisitEvent), e ∈ visitTrace n p →
      e.node ∈ n.preorder ∧
        ((e.node = n ∧ e.parent = p) ∨
          ∃ q, e.parent = some q ∧ e.node ∈ q.children ∧ q ∈ n.preorder)
  | n, p, e, he => by
    rw [visitTrace_eq_children] at he
    rcases List.mem_cons.mp he with he | he
    · subst he
      exact ⟨self_mem_preorder n, Or.inl ⟨rfl, rfl⟩⟩
    rcases List.mem_append.mp he with he | he
    · obtain ⟨l, hl, hel⟩ := List.mem_flatten.mp he
      obtain ⟨c, hc, rfl⟩ := List.mem_map.mp hl
      obtain ⟨hmem, hdisj⟩ := visitTrace_parent_sound c (some n) e hel
      refine ⟨mem_preorder_of_mem_child hc hmem, ?_⟩
      rcases hdisj with ⟨hnode, hpar⟩ | ⟨q, hpar, hql, hqm⟩
      · exact Or.inr ⟨n, hpar, hnode ▸ hc, self_mem_preorder n⟩
      · exact Or.inr ⟨q, hpar, hql, mem_preorder_of_mem_child hc hqm⟩
    · rcases List.mem_singleton.mp he with rfl
      exact ⟨self_mem_preorder n, Or.inl ⟨rfl, rfl⟩⟩
termination_by n _ _ _ => sizeOf n
decreasing_by exact sizeOf_lt_of_mem_children hc

theorem findParent_nilChain {T : Type} (node : ExprNode) (predicate : ExprNode → Option T) :
    FindParent ⟨node, []⟩ predicate = none := by
  simp [FindParent, LocatedNode.parentLoc, findParentLoop]

theorem findParent_consChain {T : Type} (node a : ExprNode) (rest : List ExprNode)
    (predicate : ExprNode → Option T) :
    FindParent ⟨node, a :: rest⟩ predicate =
      (match predicate a with
       | some t => some t
       | none => FindParent ⟨a, rest⟩ predicate) := by
  simp only [FindParent, LocatedNode.parentLoc]
  rw [findParentLoop]
  cases predicate a <;> simp [LocatedNode.parentLoc]

/-- `tokenChain` follows exactly the delegation structure of `Token()`:
the node itself, then the chain of the child `Token()` delegates to. -/
theorem tokenChain_step (n : ExprNode) :
    n.tokenChain =
      n :: (match n.tokenDelegate with
            | some c => c.tokenChain
            | none => []) := by
  cases n <;> simp [ExprNode.tokenChain, ExprNode.tokenDelegate]

/-- `Token()` always resolves: the delegation chain ends at a node holding
its own stored token, and that stored token is the value returned. -/
theorem tokenChain_terminates :
    ∀ (n : ExprNode), ∃ m, m ∈ n.tokenChain ∧ m.ownTok = some n.token
  | .variableNode name tok =>
      ⟨.variableNode name tok, by simp [ExprNode.tokenChain, ExprNode.ownTok, ExprNode.token]⟩
  | .nullNode tok =>
      ⟨.nullNode tok, by simp [ExprNode.tokenChain, ExprNode.ownTok, ExprNode.token]⟩
  | .boolNode value tok =>
      ⟨.boolNode value tok, by simp [ExprNode.tokenChain, ExprNode.ownTok, ExprNode.token]⟩
  | .intNode value tok =>
      ⟨.intNode value tok, by simp [ExprNode.tokenChain, ExprNode.ownTok, ExprNode.token]⟩
  | .floatNode value tok =>
      ⟨.floatNode value tok, by simp [ExprNode.tokenChain, ExprNode.ownTok, ExprNode.token]⟩
  | .stringNode value tok =>
      ⟨.stringNode value tok, by simp [ExprNode.tokenChain, ExprNode.ownTok, ExprNode.token]⟩
  | .objectDerefNode receiver property => by
      obtain ⟨m, hm, ho⟩ := tokenChain_terminates receiver
      exact ⟨m, by simp [ExprNode.tokenChain, List.mem_cons_of_mem, hm],
        by simp [ExprNode.token, ho]⟩
  | .arrayDerefNode receiver => by
      obtain ⟨m, hm, ho⟩ := tokenChain_terminates receiver
      exact ⟨m, by simp [ExprNode.tokenChain, List.mem_cons_of_mem, hm],
        by simp [ExprNode.token, ho]⟩
  | .indexAccessNode operand index => by
      obtain ⟨m, hm, ho⟩ := tokenChain_terminates operand
      exact ⟨m, by simp [ExprNode.tokenChain, List.mem_cons_of_mem, hm],
        by simp [ExprNode.token, ho]⟩
  | .notOpNode operand tok =>
      ⟨.notOpNode operand tok, by simp [ExprNode.tokenChain, ExprNode.ownTok, ExprNode.token]⟩
  | .compareOpNode kind left right => by
      obtain ⟨m, hm, ho⟩ := tokenChain_terminates left
      exact ⟨m, by simp [ExprNode.tokenChain, List.mem_cons_of_mem, hm],
        by simp [ExprNode.token, ho]⟩
  | .logicalOpNode kind left right => by
      obtain ⟨m, hm, ho⟩ := tokenChain_terminates left
      exact ⟨m, by simp [ExprNode.tokenChain, List.mem_cons_of_mem, hm],
        by simp [ExprNode.token, ho]⟩
  | .funcCallNode callee args tok =>
      ⟨.funcCallNode callee args tok,
        by simp [ExprNode.tokenChain, ExprNode.ownTok, ExprNode.token]⟩

/-- `postorder` also lists every node of the tree exactly once. -/
theorem postorder_length (n : ExprNode) : n.postorder.length = n.size := by
  have ih : ∀ c ∈ n.children, c.postorder.length = c.size :=
    fun c hc => postorder_length c
  rw [postorder_eq_children, size_eq_children]
  simp only [List.length_append, List.length_flatten, List.map_map, Function.comp_def,
    List.length_cons, List.length_nil]
  rw [List.map_congr_left (fun c hc => ih c hc)]
  omega
termination_by sizeOf n
decreasing_by exact sizeOf_lt_of_mem_children hc

/-- C1: for every finite acyclic expression tree rooted at `r`,
`VisitExprNode(r, f)` invokes `f` exactly `2 * size(tree)` times: the call
with any callback is the fold of the callback over the invocation trace,
the trace has length `2 * size`, and at every subtree the trace is the
entering invocation, then the children's traces in order, then the leaving
invocation — so each node's two invocations bracket those of its entire
subtree, the entering one firing before any callback of its children and
the leaving one after all of them. -/
theorem visit_invokes_callback_twice_bracketed :
    ∀ (r : ExprNode),
      (∀ (σ : Type) (f : VisitExprNodeFunc σ) (s : σ),
          VisitExprNode r f s = (visitTrace r none).foldl (applyEvent f) s) ∧
      (visitTrace r none).length = 2 * r.size ∧
      (∀ (n : ExprNode) (p : Option ExprNode),
          visitTrace n p =
            ⟨n, p, true⟩ ::
              ((n.children.map (fun c => visitTrace c (some n))).flatten ++
                [⟨n, p, false⟩])) := by
  intro r
  exact ⟨fun σ f s => visitExprNode_foldl f r none s, visitTrace_length r none,
    visitTrace_eq_children⟩

/-- C2: for every `IndexAccessNode` with operand `O` and index `I`, every
callback invocation of the subtree of `I` occurs strictly before every
invocation of the subtree of `O` (the trace is `I`'s whole trace followed
by `O`'s whole trace, inside the node's bracketing pair); the entering
order lists `I`'s preorder strictly before `O`'s; and on the tree of
`foo.bar[baz.qux]` the entering order is IndexAccess, ObjectDeref(baz.qux),
Variable(baz), ObjectDeref(foo.bar), Variable(foo). -/
theorem visit_indexAccess_index_before_operand :
    (∀ (O I : ExprNode) (p : Option ExprNode),
        visitTrace (.indexAccessNode O I) p =
          ⟨.indexAccessNode O I, p, true⟩ ::
            (visitTrace I (some (.indexAccessNode O I)) ++
              (visitTrace O (some (.indexAccessNode O I)) ++
                [⟨.indexAccessNode O I, p, false⟩]))) ∧
    (∀ (O I : ExprNode) (p : Option ExprNode),
        enterings (visitTrace (.indexAccessNode O I) p) =
          .indexAccessNode O I :: (I.preorder ++ O.preorder)) ∧
    enterings (visitTrace exampleIndexTree none) =
      [exampleIndexTree, bazQuxDeref, bazVariable, fooBarDeref, fooVariable] := by
  refine ⟨visitTrace_indexAccessNode, ?_, ?_⟩
  · intro O I p
    rw [enterings_visitTrace, preorder_eq_children]
    simp [ExprNode.children]
  · rw [enterings_visitTrace]
    simp [exampleIndexTree, fooBarDeref, bazQuxDeref, fooVariable, bazVariable,
      ExprNode.preorder]

theorem findParent_first_match_aux {T : Type} (predicate : ExprNode → Option T) :
    ∀ (front : List ExprNode) (node a : ExprNode) (back : List ExprNode) (t : T),
      (∀ x ∈ front, predicate x = none) → predicate a = some t →
      FindParent ⟨node, front ++ a :: back⟩ predicate = some t
  | [], node, a, back, t, _, ha => by
      rw [List.nil_append, findParent_consChain, ha]
  | y :: front', node, a, back, t, hfront, ha => by
      have hy : predicate y = none := hfront y (List.mem_cons_self y front')
      rw [List.cons_append, findParent_consChain, hy]
      exact findParent_first_match_aux predicate front' y a back t
        (fun x hx => hfront x (List.mem_cons_of_mem y hx)) ha

theorem findParent_none_aux {T : Type} (predicate : ExprNode → Option T) :
    ∀ (chain : List ExprNode) (node : ExprNode),
      (∀ x ∈ chain, predicate x = none) → FindParent ⟨node, chain⟩ predicate = none
  | [], node, _ => findParent_nilChain node predicate
  | y :: rest, node, h => by
      rw [findParent_consChain, h y (List.mem_cons_self y rest)]
      exact findParent_none_aux predicate rest y
        (fun x hx => h x (List.mem_cons_of_mem y hx))

/-- C3: `FindParent(n, predicate)` applies the predicate only to the
ancestors of `n` starting at `n.Parent()` (never to `n` itself — the result
does not depend on `n`'s own node), in order from nearest to farthest; it
returns the payload of the first matching ancestor without inspecting any
farther one, and returns the none/false result when the chain is exhausted
— in particular when `n.Parent()` is nil. -/
theorem findParent_nearest_ancestor :
    ∀ (T : Type) (predicate : ExprNode → Option T) (node : ExprNode),
      (∀ (front : List ExprNode) (a : ExprNode) (back : List ExprNode) (t : T),
          (∀ x ∈ front, predicate x = none) → predicate a = some t →
          FindParent ⟨node, front ++ a :: back⟩ predicate = some t) ∧
      (∀ (chain : List ExprNode),
          (∀ x ∈ chain, predicate x = none) →
          FindParent ⟨node, chain⟩ predicate = none) ∧
      FindParent ⟨node, []⟩ predicate = none ∧
      (∀ (chain : List ExprNode) (other : ExprNode),
          FindParent ⟨node, chain⟩ predicate = FindParent ⟨other, chain⟩ predicate) := by
  intro T predicate node
  refine ⟨fun front a back t hf ha => findParent_first_match_aux predicate front node a back t hf ha,
    fun chain h => findParent_none_aux predicate chain node h,
    findParent_nilChain node predicate, ?_⟩
  intro chain other
  cases chain <;> simp [findParent_nilChain, findParent_consChain]

/-- Witness for C3 at a concrete chain: from `Variable(foo)` with ancestor
chain `[Variable(baz), ObjectDeref(foo.bar)]` the nearest `ObjectDeref`
ancestor is found (skipping the non-matching nearer ancestor), and an empty
parent chain yields none. -/
theorem findParent_nearest_ancestor_witness :
    FindParent ⟨fooVariable, [bazVariable, fooBarDeref]⟩ derefProperty = some "bar" ∧
    FindParent ⟨fooVariable, []⟩ derefProperty = none := by
  have h := findParent_nearest_ancestor String derefProperty fooVariable
  refine ⟨?_, h.2.2.1⟩
  have := h.1 [bazVariable] fooBarDeref [] "bar"
    (by intro x hx; simp at hx; subst hx; simp [bazVariable, derefProperty])
    (by simp [fooBarDeref, derefProperty])
  simpa using this

/-- C4: `Token()` on a derived node delegates to its designated child —
receiver for the dereference nodes, operand for index access, left operand
for the binary operators — while the leaf-like variants return their own
stored token; the delegation chain follows `tokenDelegate` and always
terminates, after finitely many hops, at a node holding its own token whose
stored token is the value returned. -/
theorem token_delegation_terminates :
    (∀ (receiver : ExprNode) (property : String),
        (ExprNode.objectDerefNode receiver property).token = receiver.token) ∧
    (∀ (receiver : ExprNode), (ExprNode.arrayDerefNode receiver).token = receiver.token) ∧
    (∀ (operand index : ExprNode),
        (ExprNode.indexAccessNode operand index).token = operand.token) ∧
    (∀ (kind : CompareOpNodeKind) (left right : ExprNode),
        (ExprNode.compareOpNode kind left right).token = left.token) ∧
    (∀ (kind : LogicalOpNodeKind) (left right : ExprNode),
        (ExprNode.logicalOpNode kind left right).token = left.token) ∧
    (∀ (name : String) (tok : Token), (ExprNode.variableNode name tok).token = tok) ∧
    (∀ (tok : Token), (ExprNode.nullNode tok).token = tok) ∧
    (∀ (value : Bool) (tok : Token), (ExprNode.boolNode value tok).token = tok) ∧
    (∀ (value : Int) (tok : Token), (ExprNode.intNode value tok).token = tok) ∧
    (∀ (value : Float) (tok : Token), (ExprNode.floatNode value tok).token = tok) ∧
    (∀ (value : String) (tok : Token), (ExprNode.stringNode value tok).token = tok) ∧
    (∀ (operand : ExprNode) (tok : Token), (ExprNode.notOpNode operand tok).token = tok) ∧
    (∀ (callee : String) (args : List ExprNode) (tok : Token),
        (ExprNode.funcCallNode callee args tok).token = tok) ∧
    (∀ (n : ExprNode),
        n.tokenChain =
          n :: (match n.tokenDelegate with
                | some c => c.tokenChain
                | none => [])) ∧
    (∀ (n : ExprNode), ∃ m, m ∈ n.tokenChain ∧ m.ownTok = some n.token) :=
  ⟨fun _ _ => rfl, fun _ => rfl, fun _ _ => rfl, fun _ _ _ => rfl, fun _ _ _ => rfl,
    fun _ _ => rfl, fun _ => rfl, fun _ _ => rfl, fun _ _ => rfl, fun _ _ => rfl,
    fun _ _ => rfl, fun _ _ => rfl, fun _ _ _ => rfl,
    tokenChain_step, tokenChain_terminates⟩

/-- C5: the walker's per-variant child order — `ObjectDeref` and
`ArrayDeref` visit only the receiver; `NotOp` only the operand; `CompareOp`
and `LogicalOp` visit left's entire subtree before right's; `FuncCall`
visits its args strictly in index order; the six leaf variants have no
children visited (their trace is just the bracketing pair). -/
theorem visit_child_order :
    (∀ (receiver : ExprNode) (property : String) (p : Option ExprNode),
        visitTrace (.objectDerefNode receiver property) p =
          ⟨.objectDerefNode receiver property, p, true⟩ ::
            (visitTrace receiver (some (.objectDerefNode receiver property)) ++
              [⟨.objectDerefNode receiver property, p, false⟩])) ∧
    (∀ (receiver : ExprNode) (p : Option ExprNode),
        visitTrace (.arrayDerefNode receiver) p =
          ⟨.arrayDerefNode receiver, p, true⟩ ::
            (visitTrace receiver (some (.arrayDerefNode receiver)) ++
              [⟨.arrayDerefNode receiver, p, false⟩])) ∧
    (∀ (operand : ExprNode) (tok : Token) (p : Option ExprNode),
        visitTrace (.notOpNode operand tok) p =
          ⟨.notOpNode operand tok, p, true⟩ ::
            (visitTrace operand (some (.notOpNode operand tok)) ++
              [⟨.notOpNode operand tok, p, false⟩])) ∧
    (∀ (kind : CompareOpNodeKind) (left right : ExprNode) (p : Option ExprNode),
        visitTrace (.compareOpNode kind left right) p =
          ⟨.compareOpNode kind left right, p, true⟩ ::
            (visitTrace left (some (.compareOpNode kind left right)) ++
              (visitTrace right (some (.compareOpNode kind left right)) ++
                [⟨.compareOpNode kind left right, p, false⟩]))) ∧
    (∀ (kind : LogicalOpNodeKind) (left right : ExprNode) (p : Option ExprNode),
        visitTrace (.logicalOpNode kind left right) p =
          ⟨.logicalOpNode kind left right, p, true⟩ ::
            (visitTrace left (some (.logicalOpNode kind left right)) ++
              (visitTrace right (some (.logicalOpNode kind left right)) ++
                [⟨.logicalOpNode kind left right, p, false⟩]))) ∧
    (∀ (callee : String) (args : List ExprNode) (tok : Token) (p : Option ExprNode),
        visitTrace (.funcCallNode callee args tok) p =
          ⟨.funcCallNode callee args tok, p, true⟩ ::
            ((args.map
                (fun a => visitTrace a (some (.funcCallNode callee args tok)))).flatten ++
              [⟨.funcCallNode callee args tok, p, false⟩])) ∧
    (∀ (name : String) (tok : Token) (p : Option ExprNode),
        visitTrace (.variableNode name tok) p =
          [⟨.variableNode name tok, p, true⟩, ⟨.variableNode name tok, p, false⟩]) ∧
    (∀ (tok : Token) (p : Option ExprNode),
        visitTrace (.nullNode tok) p =
          [⟨.nullNode tok, p, true⟩, ⟨.nullNode tok, p, false⟩]) ∧
    (∀ (value : Bool) (tok : Token) (p : Option ExprNode),
        visitTrace (.boolNode value tok) p =
          [⟨.boolNode value tok, p, true⟩, ⟨.boolNode value tok, p, false⟩]) ∧
    (∀ (value : Int) (tok : Token) (p : Option ExprNode),
        visitTrace (.intNode value tok) p =
          [⟨.intNode value tok, p, true⟩, ⟨.intNode value tok, p, false⟩]) ∧
    (∀ (value : Float) (tok : Token) (p : Option ExprNode),
        visitTrace (.floatNode value tok) p =
          [⟨.floatNode value tok, p, true⟩, ⟨.floatNode value tok, p, false⟩]) ∧
    (∀ (value : String) (tok : Token) (p : Option ExprNode),
        visitTrace (.stringNode value tok) p =
          [⟨.stringNode value tok, p, true⟩, ⟨.stringNode value tok, p, false⟩]) := by
  refine ⟨visitTrace_objectDerefNode, visitTrace_arrayDerefNode, visitTrace_notOpNode,
    visitTrace_compareOpNode, visitTrace_logicalOpNode, ?_,
    visitTrace_variableNode, visitTrace_nullNode, visitTrace_boolNode,
    visitTrace_intNode, visitTrace_floatNode, visitTrace_stringNode⟩
  intro callee args tok p
  rw [visitTrace_funcCallNode, visitArgsTrace_join]

/-- C6: the root's two callback invocations carry parent nil (they are the
first and last events of the traversal), and every other invocation carries
as parent exactly the node from whose child field the walker descended;
every visited node is reachable from the root through child fields alone. -/
theorem visit_parent_argument :
    ∀ (root : ExprNode),
      (visitTrace root none).head? = some ⟨root, none, true⟩ ∧
      (visitTrace root none).getLast? = some ⟨root, none, false⟩ ∧
      ∀ e ∈ visitTrace root none,
        e.node ∈ root.preorder ∧
        (e.parent = none → e.node = root) ∧
        ∀ q, e.parent = some q → e.node ∈ q.children ∧ q ∈ root.preorder := by
  intro root
  refine ⟨by rw [visitTrace_eq_children]; rfl, ?_, ?_⟩
  · rw [visitTrace_eq_children,
      show (⟨root, none, true⟩ : VisitEvent) ::
          ((root.children.map (fun c => visitTrace c (some root))).flatten ++
            [⟨root, none, false⟩]) =
        (⟨root, none, true⟩ ::
          (root.children.map (fun c => visitTrace c (some root))).flatten) ++
          [⟨root, none, false⟩]
        from by simp]
    exact List.getLast?_concat _
  · intro e he
    obtain ⟨hmem, hdisj⟩ := visitTrace_parent_sound root none e he
    refine ⟨hmem, ?_, ?_⟩
    · intro hnone
      rcases hdisj with ⟨hn, _⟩ | ⟨q, hq, _, _⟩
      · exact hn
      · rw [hnone] at hq; cases hq
    · intro q hq
      rcases hdisj with ⟨_, hp⟩ | ⟨q', hq', hcm, hqm⟩
      · rw [hp] at hq; cases hq
      · rw [hq'] at hq
        cases hq
        exact ⟨hcm, hqm⟩

/-- Witness for C6 on the concrete tree `foo.bar`: the entering invocation
of `Variable(foo)` is in the trace and carries `ObjectDeref(foo.bar)` — the
node whose receiver field holds it — as its parent argument. -/
theorem visit_parent_argument_witness :
    (⟨fooVariable, some fooBarDeref, true⟩ : VisitEvent) ∈ visitTrace fooBarDeref none ∧
    fooVariable ∈ fooBarDeref.children ∧ fooBarDeref ∈ fooBarDeref.preorder := by
  have hm : (⟨fooVariable, some fooBarDeref, true⟩ : VisitEvent) ∈
      visitTrace fooBarDeref none := by
    rw [show fooBarDeref = .objectDerefNode fooVariable "bar" from rfl,
      visitTrace_objectDerefNode,
      show fooVariable = ExprNode.variableNode "foo" fooTok from rfl,
      visitTrace_variableNode]
    simp
  have h := (visit_parent_argument fooBarDeref).2.2 _ hm
  exact ⟨hm, (h.2.2 fooBarDeref rfl).1, (h.2.2 fooBarDeref rfl).2⟩

/-- C7: the walker terminates on every finite tree (its trace is a finite
list of length twice the tree size) and during the traversal no node is
visited more than once nor skipped: the entering invocations are exactly
the tree's preorder listing and the leaving invocations exactly its
postorder listing, each of which lists every node of the tree exactly once
(their length is the tree's size). -/
theorem visit_terminates_no_revisit_no_skip :
    ∀ (n : ExprNode) (p : Option ExprNode),
      enterings (visitTrace n p) = n.preorder ∧
      leavings (visitTrace n p) = n.postorder ∧
      n.preorder.length = n.size ∧
      n.postorder.length = n.size := by
  intro n p
  exact ⟨enterings_visitTrace n p, leavings_visitTrace n p,
    preorder_length n, postorder_length n⟩

/-- C8: `IsEqualityOp` returns true exactly for the `==` and `!=` kinds and
false for every other value of the integer carrier; in particular it is
false for the `<` kind. -/
theorem isEqualityOp_iff :
    ∀ (kind : CompareOpNodeKind),
      (IsEqualityOp kind = true ↔
        kind = CompareOpNodeKindEq ∨ kind = CompareOpNodeKindNotEq) ∧
      IsEqualityOp CompareOpNodeKindLess = false ∧
      IsEqualityOp CompareOpNodeKindEq = true ∧
      IsEqualityOp CompareOpNodeKindNotEq = true := by
  intro kind
  refine ⟨?_, by decide, by decide, by decide⟩
  simp [IsEqualityOp, CompareOpNodeKindEq, CompareOpNodeKindNotEq]

/-- C9: `String()` renders each valid operator kind as its canonical
symbol. -/
theorem operator_string_canonical :
    CompareOpNodeKindString CompareOpNodeKindLess = "<" ∧
    CompareOpNodeKindString CompareOpNodeKindLessEq = "<=" ∧
    CompareOpNodeKindString CompareOpNodeKindGreater = ">" ∧
    CompareOpNodeKindString CompareOpNodeKindGreaterEq = ">=" ∧
    CompareOpNodeKindString CompareOpNodeKindEq = "==" ∧
    CompareOpNodeKindString CompareOpNodeKindNotEq = "!=" ∧
    LogicalOpNodeKindString LogicalOpNodeKindAnd = "&&" ∧
    LogicalOpNodeKindString LogicalOpNodeKindOr = "||" := by
  refine ⟨?_, ?_, ?_, ?_, ?_, ?_, ?_, ?_⟩ <;> decide

/-- C10: both `String()` methods are total over the integer carrier: every
value outside the six valid comparison kinds (the invalid value included)
renders as the empty string, and every value outside the two valid logical
kinds renders as "INVALID LOGICAL OPERATOR" — so the two enumerations
disagree on how an invalid kind is rendered. -/
theorem operator_string_invalid_total :
    ∀ (kind : Int),
      (¬(kind = CompareOpNodeKindLess ∨ kind = CompareOpNodeKindLessEq ∨
          kind = CompareOpNodeKindGreater ∨ kind = CompareOpNodeKindGreaterEq ∨
          kind = CompareOpNodeKindEq ∨ kind = CompareOpNodeKindNotEq) →
        CompareOpNodeKindString kind = "") ∧
      (¬(kind = LogicalOpNodeKindAnd ∨ kind = LogicalOpNodeKindOr) →
        LogicalOpNodeKindString kind = "INVALID LOGICAL OPERATOR") ∧
      CompareOpNodeKindString CompareOpNodeKindInvalid = "" ∧
      LogicalOpNodeKindString LogicalOpNodeKindInvalid = "INVALID LOGICAL OPERATOR" ∧
      CompareOpNodeKindString CompareOpNodeKindInvalid ≠
        LogicalOpNodeKindString LogicalOpNodeKindInvalid := by
  intro kind
  refine ⟨?_, ?_, by decide, by decide, by decide⟩
  · intro h
    push_neg at h
    obtain ⟨h1, h2, h3, h4, h5, h6⟩ := h
    simp only [CompareOpNodeKindLess, CompareOpNodeKindLessEq, CompareOpNodeKindGreater,
      CompareOpNodeKindGreaterEq, CompareOpNodeKindEq, CompareOpNodeKindNotEq]
      at h1 h2 h3 h4 h5 h6
    simp [CompareOpNodeKindString, CompareOpNodeKindLess, CompareOpNodeKindLessEq,
      CompareOpNodeKindGreater, CompareOpNodeKindGreaterEq, CompareOpNodeKindEq,
      CompareOpNodeKindNotEq, h1, h2, h3, h4, h5, h6]
  · intro h
    push_neg at h
    obtain ⟨h1, h2⟩ := h
    simp only [LogicalOpNodeKindAnd, LogicalOpNodeKindOr] at h1 h2
    simp [LogicalOpNodeKindString, LogicalOpNodeKindAnd, LogicalOpNodeKindOr, h1, h2]

/-- Witness for C10 at the concrete carrier value 7, which is outside both
enumerations. -/
theorem operator_string_invalid_total_witness :
    CompareOpNodeKindString 7 = "" ∧
    LogicalOpNodeKindString 7 = "INVALID LOGICAL OPERATOR" :=
  ⟨(operator_string_invalid_total 7).1 (by decide),
    (operator_string_invalid_total 7).2.1 (by decide)⟩
